import Mathlib

/-!
# Verification of the options-backtesting engine

This file gives a shallow embedding, in Lean 4, of the computational core of
an options-backtesting system (volatility surface lookup, Black-Scholes
pricing, portfolio/trade bookkeeping, the daily simulation loop with P&L
attribution and expiration settlement), together with theorems that settle a
list of specification claims about it.

Conventions of the embedding:
* Dates (`pandas.Timestamp`) are modelled as integers counting days, so that
  `(expiry - date).days` becomes integer subtraction.
* Python floats are modelled as exact arithmetic: rationals (`ℚ`) for the
  bookkeeping/simulation layer (which only uses field operations and
  comparisons, keeping everything computable), and reals (`ℝ`) for the
  closed-form pricing layer (which uses `exp`, `log`, `sqrt` and the
  standard normal CDF).
* A Python call that can raise is modelled with `Option` (`none` = raise).
* A `PricingModel` is an abstract pair of `price`/`greeks` functions, exactly
  as the engine consumes it polymorphically.
-/

namespace Backtester

/-! ## Instruments (`backtester/instruments.py`), over exact rationals -/

/-- `OptionContract.option_type`: the `'call' | 'put'` field (the constructor
validation restricts it to these two values). -/
inductive OptionType where
  | call
  | put
deriving DecidableEq, Repr

/-- `OptionContract` (instruments.py): underlying/style carry no behaviour in
the claims under study and are omitted; strike, expiry and contract size are
kept.  `expiry` is a date in days. -/
structure OptionContract where
  option_type : OptionType
  strike : ℚ
  expiry : ℤ
  contract_size : ℚ
deriving DecidableEq, Repr

/-- `OptionContract.intrinsic_value(spot)`:
`max(spot - strike, 0)` for calls, `max(strike - spot, 0)` for puts. -/
def OptionContract.intrinsic_value (c : OptionContract) (spot : ℚ) : ℚ :=
  match c.option_type with
  | .call => max (spot - c.strike) 0
  | .put => max (c.strike - spot) 0

/-- `OptionContract.payoff(spot)`: delegates to `intrinsic_value`. -/
def OptionContract.payoff (c : OptionContract) (spot : ℚ) : ℚ :=
  c.intrinsic_value spot

/-- `OptionLeg`: a signed position in one contract. -/
structure OptionLeg where
  contract : OptionContract
  quantity : ℚ
deriving DecidableEq, Repr

/-- `OptionLeg.payoff(spot)`:
`contract.payoff(spot) * quantity * contract.contract_size`. -/
def OptionLeg.payoff (leg : OptionLeg) (spot : ℚ) : ℚ :=
  leg.contract.payoff spot * leg.quantity * leg.contract.contract_size

/-- `OptionStrategy`: a display name plus an ordered list of legs (the
concrete strategy subclasses differ only in which legs they construct). -/
structure OptionStrategy where
  name : String
  legs : List OptionLeg
deriving DecidableEq, Repr

/-- One entry of `Portfolio.trade_history` as written by `record_trade`. -/
structure TradeRecord where
  date : ℤ
  description : String
  cash_flow : ℚ
  strategy_index : Option ℕ
  cash_balance : ℚ
deriving DecidableEq, Repr

/-- `Portfolio`: strategies, cash, and the append-only trade ledger. -/
structure Portfolio where
  initial_cash : ℚ
  cash : ℚ
  strategies : List OptionStrategy
  trade_history : List TradeRecord
deriving DecidableEq, Repr

/-- `Portfolio.add_strategy`. -/
def Portfolio.add_strategy (p : Portfolio) (s : OptionStrategy) : Portfolio :=
  { p with strategies := p.strategies ++ [s] }

/-- `Portfolio.remove_strategy(index)`: `pop(index)` guarded by
`0 <= index < len(strategies)`. -/
def Portfolio.remove_strategy (p : Portfolio) (index : ℕ) : Portfolio :=
  if index < p.strategies.length then
    { p with strategies := p.strategies.eraseIdx index }
  else p

/-- `Portfolio.record_trade`: adds the cash flow to the cash balance and
appends one ledger entry carrying the resulting balance. -/
def Portfolio.record_trade (p : Portfolio) (date : ℤ) (description : String)
    (cash_flow : ℚ) (strategy_index : Option ℕ) : Portfolio :=
  let newCash := p.cash + cash_flow
  { p with
    cash := newCash
    trade_history := p.trade_history ++
      [{ date := date, description := description, cash_flow := cash_flow,
         strategy_index := strategy_index, cash_balance := newCash }] }

/-! ## Market data and pricing model, as the engine consumes them -/

/-- The five Greeks, as the dictionary returned by every `greeks` call. -/
structure Greeks (α : Type) where
  delta : α
  gamma : α
  vega : α
  theta : α
  rho : α
deriving DecidableEq, Repr

def Greeks.zero : Greeks ℚ := ⟨0, 0, 0, 0, 0⟩

def Greeks.add (a b : Greeks ℚ) : Greeks ℚ :=
  ⟨a.delta + b.delta, a.gamma + b.gamma, a.vega + b.vega,
   a.theta + b.theta, a.rho + b.rho⟩

def Greeks.smul (c : ℚ) (g : Greeks ℚ) : Greeks ℚ :=
  ⟨g.delta * c, g.gamma * c, g.vega * c, g.theta * c, g.rho * c⟩

/-- The slice of `MarketData` (data.py) the simulation loop reads:
`get_spot(date)` (already including its backward-fill to the latest prior
date; `none` models the exception raised when no prior date exists) and the
chronological `time_index`. -/
structure MarketDataQ where
  get_spot : ℤ → Option ℚ
  time_index : List ℤ

/-- A pricing model as consumed polymorphically by the engine: total
`price`/`greeks` functions of (contract, date, market data). -/
structure PricingModelQ where
  price : OptionContract → ℤ → MarketDataQ → ℚ
  greeks : OptionContract → ℤ → MarketDataQ → Greeks ℚ

/-- `OptionLeg.price`: `model.price(contract, date, md) * quantity *
contract_size`. -/
def OptionLeg.priceValue (leg : OptionLeg) (date : ℤ) (md : MarketDataQ)
    (model : PricingModelQ) : ℚ :=
  model.price leg.contract date md * leg.quantity * leg.contract.contract_size

/-- `OptionLeg.greeks`: the model's Greeks scaled by `quantity *
contract_size`. -/
def OptionLeg.greeksValue (leg : OptionLeg) (date : ℤ) (md : MarketDataQ)
    (model : PricingModelQ) : Greeks ℚ :=
  Greeks.smul (leg.quantity * leg.contract.contract_size)
    (model.greeks leg.contract date md)

/-- `OptionStrategy.value`: sum of the leg values. -/
def OptionStrategy.value (s : OptionStrategy) (date : ℤ) (md : MarketDataQ)
    (model : PricingModelQ) : ℚ :=
  (s.legs.map (fun leg => leg.priceValue date md model)).sum

/-- `OptionStrategy.greeks`: key-wise sum of the leg Greeks (the source
returns an explicit zero dictionary for a legless strategy; the fold below
yields the same value in that case). -/
def OptionStrategy.greeksValue (s : OptionStrategy) (date : ℤ)
    (md : MarketDataQ) (model : PricingModelQ) : Greeks ℚ :=
  s.legs.foldl (fun acc leg => acc.add (leg.greeksValue date md model))
    Greeks.zero

/-- `Portfolio.value`: cash plus the sum of the strategy values. -/
def Portfolio.value (p : Portfolio) (date : ℤ) (md : MarketDataQ)
    (model : PricingModelQ) : ℚ :=
  p.cash + (p.strategies.map (fun s => s.value date md model)).sum

/-- `Portfolio.greeks`: key-wise sum of the strategy Greeks, starting from
the zero dictionary. -/
def Portfolio.greeksValue (p : Portfolio) (date : ℤ) (md : MarketDataQ)
    (model : PricingModelQ) : Greeks ℚ :=
  p.strategies.foldl (fun acc s => acc.add (s.greeksValue date md model))
    Greeks.zero

/-! ## Expiration settlement (`BacktestEngine._handle_expirations`)

The Python loop iterates over `enumerate(self.portfolio.strategies)`; for
every leg with `expiry <= date` it adds the leg payoff to cash, marks the
strategy index for removal (guarded by an `i not in strategies_to_remove`
membership test), and calls `record_trade` with the payoff as cash flow.
Afterwards it removes the marked indices in `sorted(..., reverse=True)`
order.  The loop mutates only the cash/ledger state while iterating, and the
removal step mutates only the strategy list, so the embedding splits it into
a settlement pass, a marking pass, and a removal pass over the same inputs. -/

/-- The inner per-leg settlement of `_handle_expirations`: for an expired leg
the code runs `self.portfolio.cash += final_payoff` and then
`record_trade(..., cash_flow=final_payoff, ...)` (which adds the payoff to
cash a second time). -/
def settleLeg (spot : ℚ) (date : ℤ) (i : ℕ) (sname : String) (p : Portfolio)
    (leg : OptionLeg) : Portfolio :=
  if leg.contract.expiry ≤ date then
    let final_payoff := leg.payoff spot
    let p1 := { p with cash := p.cash + final_payoff }
    p1.record_trade date ("Expiration: " ++ sname) final_payoff (some i)
  else p

/-- The settlement pass of `_handle_expirations` (cash and ledger updates of
the enumerate loop). -/
def settleExpirations (spot : ℚ) (date : ℤ) (p : Portfolio) : Portfolio :=
  p.strategies.enum.foldl
    (fun q entry => entry.2.legs.foldl (settleLeg spot date entry.1 entry.2.name) q)
    p

/-- The marking pass of `_handle_expirations`: the `strategies_to_remove`
list, built by appending the index of each strategy owning an expired leg,
guarded by the `i not in strategies_to_remove` membership test. -/
def strategiesToRemove (date : ℤ) (strategies : List OptionStrategy) : List ℕ :=
  strategies.enum.foldl
    (fun acc entry =>
      entry.2.legs.foldl
        (fun acc2 leg =>
          if leg.contract.expiry ≤ date then
            if entry.1 ∈ acc2 then acc2 else acc2 ++ [entry.1]
          else acc2)
        acc)
    []

/-- Insertion step of the descending sort modelling
`sorted(strategies_to_remove, reverse=True)`. -/
def insertDesc (x : ℕ) : List ℕ → List ℕ
  | [] => [x]
  | y :: ys => if y ≤ x then x :: y :: ys else y :: insertDesc x ys

/-- Descending (insertion) sort modelling `sorted(..., reverse=True)`. -/
def sortDesc (l : List ℕ) : List ℕ := l.foldr insertDesc []

/-- `BacktestEngine._handle_expirations(date)`: settle every expired leg,
then remove the marked strategies in descending index order.  `spot` is
`self.market_data.get_spot(date)`, which the engine has already read for the
same date. -/
def handleExpirations (spot : ℚ) (date : ℤ) (p : Portfolio) : Portfolio :=
  let p1 := settleExpirations spot date p
  (sortDesc (strategiesToRemove date p.strategies)).foldl
    (fun q i => q.remove_strategy i) p1

/-! ## The daily simulation loop (`backtester/backtest.py`) -/

/-- The fields of `BacktestConfig` consumed by the embedded operations. -/
structure BacktestConfig where
  start_date : ℤ
  end_date : ℤ
  initial_capital : ℚ
  transaction_cost_per_contract : ℚ
  transaction_cost_pct : ℚ
deriving DecidableEq, Repr

/-- The six-component P&L attribution dictionary. -/
structure PnlAttribution where
  pnl_delta : ℚ
  pnl_gamma : ℚ
  pnl_vega : ℚ
  pnl_theta : ℚ
  pnl_rho : ℚ
  pnl_residual : ℚ
deriving DecidableEq, Repr

/-- The all-zero attribution dictionary the engine emits when it skips the
attribution computation. -/
def PnlAttribution.zero : PnlAttribution := ⟨0, 0, 0, 0, 0, 0⟩

/-- The sum of the six attribution components. -/
def PnlAttribution.total (a : PnlAttribution) : ℚ :=
  a.pnl_delta + a.pnl_gamma + a.pnl_vega + a.pnl_theta + a.pnl_rho +
    a.pnl_residual

/-- One row of `daily_results` as assembled in `_process_day`. -/
structure DailyResult where
  date : ℤ
  spot : ℚ
  portfolio_value : ℚ
  cash : ℚ
  daily_pnl : ℚ
  total_return : ℚ
  greeks : Greeks ℚ
  attribution : PnlAttribution
  num_strategies : ℕ
deriving DecidableEq, Repr

/-- A placeholder row used only as the default of out-of-range list reads in
closed statements. -/
def DailyResult.dummy : DailyResult :=
  ⟨0, 0, 0, 0, 0, 0, Greeks.zero, PnlAttribution.zero, 0⟩

/-- The engine-owned mutable state (`BacktestEngine` instance fields):
portfolio, accumulated daily results, previous day's portfolio value and
previous day's Greeks. -/
structure EngineState where
  portfolio : Portfolio
  daily_results : List DailyResult
  prev_portfolio_value : ℚ
  prev_greeks : Greeks ℚ
deriving DecidableEq, Repr

/-- `BacktestEngine.__init__`: fresh portfolio at the configured capital,
empty results, `prev_portfolio_value = initial_capital`, zero previous
Greeks. -/
def initEngine (cfg : BacktestConfig) : EngineState :=
  { portfolio :=
      { initial_cash := cfg.initial_capital, cash := cfg.initial_capital,
        strategies := [], trade_history := [] }
    daily_results := []
    prev_portfolio_value := cfg.initial_capital
    prev_greeks := Greeks.zero }

/-- `BacktestEngine.add_strategy`: add the strategy to the portfolio, value
it at the entry date, add transaction costs, and record a single entry trade
with cash flow `-(entry_cost + txn_cost)`. -/
def addStrategy (cfg : BacktestConfig) (md : MarketDataQ)
    (model : PricingModelQ) (st : EngineState) (strategy : OptionStrategy)
    (entry_date : ℤ) : EngineState :=
  let p := st.portfolio.add_strategy strategy
  let entry_cost := strategy.value entry_date md model
  let num_contracts := (strategy.legs.map (fun leg => |leg.quantity|)).sum
  let txn_cost := num_contracts * cfg.transaction_cost_per_contract +
    |entry_cost| * cfg.transaction_cost_pct
  let total_cost := entry_cost + txn_cost
  let p2 := p.record_trade entry_date ("Enter " ++ strategy.name)
    (-total_cost) (some (p.strategies.length - 1))
  { st with portfolio := p2 }

/-- `BacktestEngine._calculate_pnl_attribution(date, current_spot,
current_greeks)`: first-order Taylor decomposition from the previous day's
Greeks (`self.prev_greeks`) and the spot move since `date - 1 day`; the
`except` branch (previous spot unavailable) returns the zero dictionary.
`actual_pnl` is read from `self.daily_results[-1]` — the last row appended so
far, i.e. the previous processed day's row, because the current day's row is
appended only later in `_process_day` (`0.0` if no row exists yet). -/
def calcPnlAttribution (md : MarketDataQ) (st : EngineState) (date : ℤ)
    (current_spot : ℚ) (current_greeks : Greeks ℚ) : PnlAttribution :=
  let prev_date := date - 1
  match md.get_spot prev_date with
  | none => PnlAttribution.zero
  | some prev_spot =>
    let dS := current_spot - prev_spot
    let pnl_delta := st.prev_greeks.delta * dS
    let pnl_gamma := 1/2 * st.prev_greeks.gamma * dS ^ 2
    let pnl_theta := st.prev_greeks.theta * 1
    let pnl_vega : ℚ := 0
    let pnl_rho : ℚ := 0
    let pnl_explained := pnl_delta + pnl_gamma + pnl_theta + pnl_vega + pnl_rho
    let actual_pnl :=
      ((st.daily_results.getLast?).map DailyResult.daily_pnl).getD 0
    let pnl_residual := actual_pnl - pnl_explained
    { pnl_delta := pnl_delta, pnl_gamma := pnl_gamma, pnl_vega := pnl_vega,
      pnl_theta := pnl_theta, pnl_rho := pnl_rho,
      pnl_residual := pnl_residual }

/-- `BacktestEngine._process_day(date)`, in source order: read spot (a raise
aborts the run: `none`), value the portfolio and aggregate Greeks, compute
daily P&L and total return, run attribution when
`self.prev_portfolio_value != self.config.initial_capital` (the code's test
for "not the first day") and emit the zero dictionary otherwise, handle
expirations, append the result row (reading cash and strategy count after
expiration handling), then carry today's value and Greeks forward. -/
def processDay (cfg : BacktestConfig) (md : MarketDataQ)
    (model : PricingModelQ) (st : EngineState) (date : ℤ) :
    Option EngineState :=
  match md.get_spot date with
  | none => none
  | some spot =>
    let portfolio_value := st.portfolio.value date md model
    let portfolio_greeks := st.portfolio.greeksValue date md model
    let daily_pnl := portfolio_value - st.prev_portfolio_value
    let total_return :=
      (portfolio_value - cfg.initial_capital) / cfg.initial_capital
    let pnl_attribution :=
      if st.prev_portfolio_value ≠ cfg.initial_capital then
        calcPnlAttribution md st date spot portfolio_greeks
      else PnlAttribution.zero
    let portfolio1 := handleExpirations spot date st.portfolio
    let result : DailyResult :=
      { date := date, spot := spot, portfolio_value := portfolio_value,
        cash := portfolio1.cash, daily_pnl := daily_pnl,
        total_return := total_return, greeks := portfolio_greeks,
        attribution := pnl_attribution,
        num_strategies := portfolio1.strategies.length }
    some
      { portfolio := portfolio1
        daily_results := st.daily_results ++ [result]
        prev_portfolio_value := portfolio_value
        prev_greeks := portfolio_greeks }

/-- The date iteration of `BacktestEngine.run` over a given date list. -/
def runDates (cfg : BacktestConfig) (md : MarketDataQ)
    (model : PricingModelQ) (st : EngineState) : List ℤ → Option EngineState
  | [] => some st
  | d :: ds =>
    match processDay cfg md model st d with
    | none => none
    | some st1 => runDates cfg md model st1 ds

/-- `BacktestEngine.run`: process, in order, every date of the market data's
time index lying in `[start_date, end_date]`. -/
def runBacktest (cfg : BacktestConfig) (md : MarketDataQ)
    (model : PricingModelQ) (st : EngineState) : Option EngineState :=
  runDates cfg md model st
    (md.time_index.filter
      (fun d => decide (cfg.start_date ≤ d) && decide (d ≤ cfg.end_date)))

/-! ## Concrete runs used to evaluate the engine on explicit inputs -/

/-- A three-day market: spot 100 on day 0, then 105 on days 1 and 2. -/
def mdS : MarketDataQ :=
  { get_spot := fun d =>
      if d = 0 then some 100
      else if d = 1 then some 105
      else if d = 2 then some 105
      else none
    time_index := [0, 1, 2] }

/-- A pricing model whose price is identically `0` and whose per-share Greeks
are `delta = 1`, others `0` (the engine is polymorphic over the model). -/
def modelS : PricingModelQ :=
  { price := fun _ _ _ => 0
    greeks := fun _ _ _ => ⟨1, 0, 0, 0, 0⟩ }

/-- Configuration: run days 0..2, capital 100, zero transaction costs. -/
def cfgS : BacktestConfig :=
  { start_date := 0, end_date := 2, initial_capital := 100,
    transaction_cost_per_contract := 0, transaction_cost_pct := 0 }

/-- A single long-call strategy: strike 90, contract size 100, expiring on
day 0. -/
def stratS : OptionStrategy :=
  { name := "Long Call"
    legs := [{ contract :=
                 { option_type := .call, strike := 90, expiry := 0,
                   contract_size := 100 }
               quantity := 1 }] }

/-- Engine state after `add_strategy(stratS, entry_date=0)` (the entry trade
has cash flow `-0` because the model prices the strategy at `0` and the
configured transaction costs are `0`). -/
def s0 : EngineState := addStrategy cfgS mdS modelS (initEngine cfgS) stratS 0

/-- The engine state after processing day 0 of the run (used to re-apply the
attribution computation at the state that produces day 1's row). -/
def sDay0 : EngineState :=
  (processDay cfgS mdS modelS s0 0).getD (initEngine cfgS)

/-- The final engine state of the three-day run. -/
def sFinal : EngineState :=
  (runBacktest cfgS mdS modelS s0).getD (initEngine cfgS)

/-- A standalone portfolio used to evaluate expiration settlement: capital
1000, no prior trades, one long-call strategy (strike 90, size 100) expiring
on day 0. -/
def p3 : Portfolio :=
  { initial_cash := 1000, cash := 1000, strategies := [stratS],
    trade_history := [] }

/-- The per-leg settlements `_handle_expirations` performs on a given day:
one `(payoff, strategy index)` pair for each leg with `expiry <= date`, in
iteration order.  Legs with `expiry > date` contribute nothing. -/
def expiredSettlements (spot : ℚ) (date : ℤ)
    (strategies : List OptionStrategy) : List (ℚ × Option ℕ) :=
  (strategies.enum.map (fun entry =>
    (entry.2.legs.filter (fun leg => decide (leg.contract.expiry ≤ date))).map
      (fun leg => (leg.payoff spot, some entry.1)))).flatten

/-- The `(cash_flow, strategy_index)` projection of a ledger entry, used to
state which trades a settlement pass records. -/
def TradeRecord.flowIndex (t : TradeRecord) : ℚ × Option ℕ :=
  (t.cash_flow, t.strategy_index)

/-! ## Bump-and-revalue Greeks (`SurfaceGreeksModel`, models.py)

`_bump_spot`, `_bump_vol` and `_bump_rate` all run `copy.deepcopy` on the
market data and return the copy without ever writing the bumped value into
it (`_bump_spot` reads the current spot into a local that is then discarded).
Under value semantics a deep copy is the identity, so each helper is the
identity function on the market data. -/

/-- `SurfaceGreeksModel._bump_spot(market_data, date, bump)`: deep-copies the
market data, reads the current spot into an unused local, and returns the
copy unchanged. -/
def bumpSpot (market_data : MarketDataQ) (date : ℤ) (bump : ℚ) :
    MarketDataQ :=
  let bumped_data := market_data
  let current_spot := market_data.get_spot date
  bumped_data

/-- `SurfaceGreeksModel._bump_vol`: deep copy, returned unchanged. -/
def bumpVol (market_data : MarketDataQ) (date : ℤ) (option : OptionContract)
    (bump : ℚ) : MarketDataQ :=
  let bumped_data := market_data
  bumped_data

/-- `SurfaceGreeksModel._bump_rate`: deep copy, returned unchanged. -/
def bumpRate (market_data : MarketDataQ) (date : ℤ) (bump : ℚ) :
    MarketDataQ :=
  let bumped_data := market_data
  bumped_data

/-- `SurfaceGreeksModel.greeks(option, date, market_data)` for a base model
given as a price function: central difference on spot for delta (bump = `S *
bump_size`), second central difference for gamma, one-sided differences for
vega (+0.01 absolute vol) and rho (+0.01 rate), one-day forward difference
for theta.  `none` models the exception raised by `get_spot` when the date
is unavailable. -/
def surfaceGreeksModel
    (basePrice : OptionContract → ℤ → MarketDataQ → ℚ) (bump_size : ℚ)
    (option : OptionContract) (date : ℤ) (market_data : MarketDataQ) :
    Option (Greeks ℚ) :=
  match market_data.get_spot date with
  | none => none
  | some S =>
    let P0 := basePrice option date market_data
    let bump_S := S * bump_size
    let market_data_up := bumpSpot market_data date bump_S
    let market_data_down := bumpSpot market_data date (-bump_S)
    let P_up := basePrice option date market_data_up
    let P_down := basePrice option date market_data_down
    let delta := (P_up - P_down) / (2 * bump_S)
    let gamma := (P_up - 2 * P0 + P_down) / bump_S ^ 2
    let bump_vol := (1 : ℚ)/100
    let market_data_vol_up := bumpVol market_data date option bump_vol
    let P_vol_up := basePrice option date market_data_vol_up
    let vega := (P_vol_up - P0) / 1
    let date_next := date + 1
    let P_next := basePrice option date_next market_data
    let theta := P_next - P0
    let bump_r := (1 : ℚ)/100
    let market_data_r_up := bumpRate market_data date bump_r
    let P_r_up := basePrice option date market_data_r_up
    let rho := (P_r_up - P0) / 1
    some ⟨delta, gamma, vega, theta, rho⟩

/-- A market context with spot 100 on every date (for evaluating the bump
model on explicit inputs). -/
def mdFlat100 : MarketDataQ :=
  { get_spot := fun _ => some 100, time_index := [0] }

/-- A base pricing model whose price equals the market spot, so that a
genuine 1% spot bump would move its price and give central-difference
delta 1. -/
def spotPriceModel : OptionContract → ℤ → MarketDataQ → ℚ :=
  fun _ date md => (md.get_spot date).getD 0

/-- An at-the-money call (strike 100, 30 days out) used to evaluate the
bump-and-revalue Greeks on explicit inputs. -/
def cATM : OptionContract :=
  { option_type := .call, strike := 100, expiry := 30, contract_size := 100 }

/-! ## Volatility surface (`VolSurface`, data.py), over exact reals

The interpolator (`scipy.interpolate.Rbf` / `LinearNDInterpolator`) is an
opaque fitted function; it is modelled as an arbitrary function that either
returns a value or raises (`Option ℝ`).  The sample table keeps the columns
the fallback path reads: `strike`, `days_to_expiry` (integer days produced
from the `expiry` column relative to the surface date), `implied_vol`. -/

/-- One row of `vol_data`. -/
structure VolSample where
  strike : ℝ
  days_to_expiry : ℤ
  implied_vol : ℝ

/-- A `VolSurface`: its as-of `date`, its sample table, and its fitted
interpolator (`none` models an evaluation that raises). -/
structure VolSurfaceData where
  date : ℤ
  samples : List VolSample
  interpolator : ℝ → ℤ → Option ℝ

noncomputable section

open Classical in
/-- `np.clip(x, lo, hi)`. -/
def npClip (x lo hi : ℝ) : ℝ := min (max x lo) hi

open Classical in
/-- The minimum entry of a list of distances (`0` junk value on `[]`, which
models the exception `pandas` raises on an empty column). -/
def listMin : List ℝ → ℝ
  | [] => 0
  | [x] => x
  | x :: y :: xs => min x (listMin (y :: xs))

open Classical in
/-- `Series.idxmin`: the position of the first minimal entry. -/
def idxmin : List ℝ → ℕ
  | [] => 0
  | [_] => 0
  | x :: y :: xs => if x ≤ listMin (y :: xs) then 0 else idxmin (y :: xs) + 1

open Classical in
/-- `VolSurface.iv(strike, expiry)` for a date-valued `expiry`:
`days_to_expiry = (expiry - self.date).days`; `0.0` when `days_to_expiry <=
0`; otherwise the interpolator value clamped by `np.clip(iv_value, 0.01,
5.0)`; when the interpolator raises, the raw `implied_vol` of the sample at
`distances.idxmin()`, where `distances` are the Euclidean distances in
(strike, days) space (unclamped; the `0` default models the exception raised
when the sample table is empty). -/
def VolSurfaceData.iv (vs : VolSurfaceData) (strike : ℝ) (expiry : ℤ) : ℝ :=
  let days_to_expiry := expiry - vs.date
  if days_to_expiry ≤ 0 then 0
  else
    match vs.interpolator strike days_to_expiry with
    | some iv_value => npClip iv_value (1/100) 5
    | none =>
      let distances := vs.samples.map fun s =>
        Real.sqrt ((s.strike - strike) ^ 2 +
          ((s.days_to_expiry : ℝ) - (days_to_expiry : ℝ)) ^ 2)
      let nearest_idx := idxmin distances
      ((vs.samples.get? nearest_idx).map VolSample.implied_vol).getD 0

end

/-! ## Surface selection (`MarketData.get_implied_vol`, data.py) -/

/-- Insertion step of the ascending sort modelling
`sorted(self.vol_surfaces.keys())`. -/
def insertAsc (x : ℤ) : List ℤ → List ℤ
  | [] => [x]
  | y :: ys => if x ≤ y then x :: y :: ys else y :: insertAsc x ys

/-- Ascending (insertion) sort modelling `sorted(...)`. -/
def sortAsc (l : List ℤ) : List ℤ := l.foldr insertAsc []

/-- `min(surface_dates, key=lambda d: abs((d - date).days))`: left fold that
replaces the current best only on a strictly smaller key, so the first
element attaining the minimum wins ties. -/
def argminAbsDate (date : ℤ) (d : ℤ) (ds : List ℤ) : ℤ :=
  ds.foldl (fun best x => if |x - date| < |best - date| then x else best) d

/-- The surface-date selection of `get_implied_vol`: the exact date when a
surface exists for it, otherwise the surface date nearest to the query date
by absolute day difference over the sorted key list (`none` when no surface
exists at all, in which case the caller returns the flat default vol). -/
def selectSurfaceDate (keys : List ℤ) (date : ℤ) : Option ℤ :=
  if date ∈ keys then some date
  else
    match sortAsc keys with
    | [] => none
    | d :: ds => some (argminAbsDate date d ds)

noncomputable section

open Classical in
/-- `MarketData.get_implied_vol(date, strike, expiry)`: select the surface
(exact date, else nearest by absolute day difference, else none) and query
its `iv`; a flat `0.20` when no surface exists.  The surface dictionary is
modelled as an association list with distinct keys. -/
def getImpliedVolFromSurfaces (surfaces : List (ℤ × VolSurfaceData))
    (date : ℤ) (strike : ℝ) (expiry : ℤ) : ℝ :=
  match selectSurfaceDate (surfaces.map Prod.fst) date with
  | none => 0.20
  | some d =>
    match surfaces.lookup d with
    | some vs => vs.iv strike expiry
    | none => 0.20

end

/-- A surface dated day 0 whose interpolator always returns `0.3`. -/
noncomputable def vsDay0 : VolSurfaceData :=
  { date := 0, samples := [], interpolator := fun _ _ => some 0.3 }

/-- A surface dated day 10 whose interpolator always returns `0.4`. -/
noncomputable def vsDay10 : VolSurfaceData :=
  { date := 10, samples := [], interpolator := fun _ _ => some 0.4 }

/-- A surface whose interpolator always raises and whose single sample has
implied vol `7` (outside `[0.01, 5]`), at strike 100, 5 days to expiry. -/
noncomputable def vsFallback : VolSurfaceData :=
  { date := 0,
    samples := [{ strike := 100, days_to_expiry := 5, implied_vol := 7 }],
    interpolator := fun _ _ => none }

/-- A surface whose interpolator always returns `10` (above the clamp). -/
noncomputable def vsHigh : VolSurfaceData :=
  { date := 0, samples := [], interpolator := fun _ _ => some 10 }

/-! ## Black-Scholes model (`BlackScholesModel`, models.py), over exact reals

`price`/`greeks` read spot, rate and dividend yield from the market data at
the valuation date, the strike from the contract, `T = (expiry -
date).days / 365`, and the implied vol from
`get_implied_vol(date, K, expiry, S)` — a lookup that does not depend on the
option type, so a call and a put on the same contract parameters receive the
same `sigma`.  The embedding takes these market inputs `(S, K, r, q, T,
sigma)` directly as real parameters. -/

/-- The density of the standard normal distribution
(`scipy.stats.norm.pdf`). -/
noncomputable def normPdf (x : ℝ) : ℝ :=
  (Real.sqrt (2 * Real.pi))⁻¹ * Real.exp (-(x ^ 2) / 2)

/-- The cumulative distribution function of the standard normal distribution
(`scipy.stats.norm.cdf`). -/
noncomputable def normCdf (x : ℝ) : ℝ := ∫ t in Set.Iic x, normPdf t

noncomputable section

/-- `intrinsic_value` on the model's real-valued inputs:
`max(S - K, 0)` for calls, `max(K - S, 0)` for puts. -/
def intrinsicValue (ty : OptionType) (S K : ℝ) : ℝ :=
  match ty with
  | .call => max (S - K) 0
  | .put => max (K - S) 0

open Classical in
/-- `BlackScholesModel.price`: intrinsic value when `T <= 0`; otherwise the
closed-form price with `d1 = (log(S/K) + (r - q + 0.5 sigma^2) T) / (sigma
sqrt T)`, `d2 = d1 - sigma sqrt T`, floored at `0` by `max(price, 0.0)`.
`normCdf` is the standard normal CDF (`scipy.stats.norm.cdf`). -/
def bsPrice (ty : OptionType) (S K r q T sigma : ℝ) : ℝ :=
  if T ≤ 0 then intrinsicValue ty S K
  else
    let d1 := (Real.log (S / K) + (r - q + 0.5 * sigma ^ 2) * T) /
      (sigma * Real.sqrt T)
    let d2 := d1 - sigma * Real.sqrt T
    let price :=
      match ty with
      | .call => S * Real.exp (-q * T) * normCdf d1 -
          K * Real.exp (-r * T) * normCdf d2
      | .put => K * Real.exp (-r * T) * normCdf (-d2) -
          S * Real.exp (-q * T) * normCdf (-d1)
    max price 0

open Classical in
/-- `BlackScholesModel.greeks`: at `T <= 0`, `delta = 1.0 if
intrinsic_value(S) > 0 else 0.0` (for calls and puts alike) and all other
Greeks `0`; otherwise the closed-form Greeks with vega and rho scaled per
1 percentage-point move and theta per calendar day. -/
def bsGreeks (ty : OptionType) (S K r q T sigma : ℝ) : Greeks ℝ :=
  if T ≤ 0 then
    { delta := if 0 < intrinsicValue ty S K then 1 else 0,
      gamma := 0, vega := 0, theta := 0, rho := 0 }
  else
    let sqrt_T := Real.sqrt T
    let d1 := (Real.log (S / K) + (r - q + 0.5 * sigma ^ 2) * T) /
      (sigma * sqrt_T)
    let d2 := d1 - sigma * sqrt_T
    let nd1 := normPdf d1
    let Nd1 := normCdf d1
    let Nd2 := normCdf d2
    let delta :=
      match ty with
      | .call => Real.exp (-q * T) * Nd1
      | .put => -(Real.exp (-q * T)) * normCdf (-d1)
    let gamma := Real.exp (-q * T) * nd1 / (S * sigma * sqrt_T)
    let vega := S * Real.exp (-q * T) * nd1 * sqrt_T / 100
    let theta :=
      match ty with
      | .call =>
          (-S * Real.exp (-q * T) * nd1 * sigma / (2 * sqrt_T) -
            r * K * Real.exp (-r * T) * Nd2 +
            q * S * Real.exp (-q * T) * Nd1) / 365
      | .put =>
          (-S * Real.exp (-q * T) * nd1 * sigma / (2 * sqrt_T) +
            r * K * Real.exp (-r * T) * normCdf (-d2) -
            q * S * Real.exp (-q * T) * normCdf (-d1)) / 365
    let rho :=
      match ty with
      | .call => K * T * Real.exp (-r * T) * Nd2 / 100
      | .put => -K * T * Real.exp (-r * T) * normCdf (-d2) / 100
    ⟨delta, gamma, vega, theta, rho⟩

end

/-! ## Lemmas: the marking pass builds the expired indices in ascending
order -/

/-- The per-strategy marking fold of `_handle_expirations`: it appends the
index `i` exactly when some leg is expired and `i` is not yet marked. -/
theorem markLegs_foldl (date : ℤ) (i : ℕ) (legs : List OptionLeg)
    (acc : List ℕ) :
    legs.foldl
      (fun acc2 leg =>
        if leg.contract.expiry ≤ date then
          if i ∈ acc2 then acc2 else acc2 ++ [i]
        else acc2) acc
    = if legs.any (fun leg => decide (leg.contract.expiry ≤ date)) then
        (if i ∈ acc then acc else acc ++ [i])
      else acc := by
  induction legs generalizing acc with
  | nil => simp
  | cons leg rest ih =>
    by_cases h : leg.contract.expiry ≤ date
    · by_cases hi : i ∈ acc
      · simp [h, hi, ih]
      · simp [h, hi, ih]
    · simp [h, ih]

/-- The marking pass over an enumerated suffix, for an accumulator of
indices smaller than the enumeration base: the membership guard never fires
and the result appends the indices of the strategies owning an expired
leg. -/
theorem strategiesToRemove_aux (date : ℤ) (l : List OptionStrategy) :
    ∀ (n : ℕ) (acc : List ℕ), (∀ j ∈ acc, j < n) →
    (l.enumFrom n).foldl
      (fun acc entry =>
        entry.2.legs.foldl
          (fun acc2 leg =>
            if leg.contract.expiry ≤ date then
              if entry.1 ∈ acc2 then acc2 else acc2 ++ [entry.1]
            else acc2) acc) acc
    = acc ++ ((l.enumFrom n).filter
        (fun p => p.2.legs.any
          (fun leg => decide (leg.contract.expiry ≤ date)))).map Prod.fst := by
  induction l with
  | nil => intro n acc _; simp
  | cons s rest ih =>
    intro n acc hacc
    have hn : n ∉ acc := fun h => lt_irrefl n (hacc n h)
    simp only [List.enumFrom, List.foldl_cons]
    rw [markLegs_foldl date n s.legs acc]
    by_cases hq : s.legs.any (fun leg => decide (leg.contract.expiry ≤ date))
    · rw [if_pos hq, if_neg hn,
        ih (n + 1) (acc ++ [n])
          (by
            intro j hj
            rcases List.mem_append.1 hj with hj | hj
            · exact Nat.lt_succ_of_lt (hacc j hj)
            · simp only [List.mem_singleton] at hj
              exact hj ▸ Nat.lt_succ_self n)]
      simp [List.filter_cons, hq]
    · rw [if_neg hq, ih (n + 1) acc
        (fun j hj => Nat.lt_succ_of_lt (hacc j hj))]
      simp [List.filter_cons, hq]

/-- `strategies_to_remove` is exactly the ascending list of indices of the
strategies owning at least one expired leg. -/
theorem strategiesToRemove_eq (date : ℤ) (l : List OptionStrategy) :
    strategiesToRemove date l
    = (l.enum.filter
        (fun p => p.2.legs.any
          (fun leg => decide (leg.contract.expiry ≤ date)))).map Prod.fst := by
  simpa using strategiesToRemove_aux date l 0 [] (by simp)

/-! ## Lemmas: descending-order removal of ascending indices is filtering -/

theorem insertDesc_of_forall_lt (x : ℕ) (l : List ℕ) (h : ∀ y ∈ l, x < y) :
    insertDesc x l = l ++ [x] := by
  induction l with
  | nil => rfl
  | cons y ys ih =>
    have hxy : x < y := h y (List.mem_cons_self y ys)
    simp only [insertDesc, if_neg (Nat.not_le.2 hxy)]
    rw [ih fun z hz => h z (List.mem_cons_of_mem y hz)]
    simp

/-- `sorted(l, reverse=True)` of a strictly ascending list is its
reversal. -/
theorem sortDesc_of_ascending (l : List ℕ) (h : l.Pairwise (· < ·)) :
    sortDesc l = l.reverse := by
  induction l with
  | nil => rfl
  | cons a t ih =>
    have h1 : ∀ y ∈ t, a < y := (List.pairwise_cons.1 h).1
    have h2 := ih (List.pairwise_cons.1 h).2
    show insertDesc a (sortDesc t) = (a :: t).reverse
    rw [h2, insertDesc_of_forall_lt a t.reverse
      (fun y hy => h1 y (List.mem_reverse.1 hy))]
    simp

theorem eraseIdx_append_left {α : Type} (t : List α) :
    ∀ (l : List α) (i : ℕ), i < l.length →
    (l ++ t).eraseIdx i = l.eraseIdx i ++ t := by
  intro l
  induction l with
  | nil => intro i h; simp at h
  | cons a l ih =>
    intro i h
    match i with
    | 0 => simp [List.eraseIdx]
    | j + 1 =>
      simp only [List.cons_append, List.eraseIdx_cons_succ, List.cons_append]
      rw [ih j (by simpa using Nat.lt_of_succ_lt_succ h)]

theorem eraseIdx_concat_self {α : Type} (l : List α) (a : α) :
    (l ++ [a]).eraseIdx l.length = l := by
  induction l with
  | nil => rfl
  | cons b l ih => simpa [List.eraseIdx] using ih

/-- Erasing a strictly descending list of indices, all inside the left part
of an append, leaves the right part untouched. -/
theorem foldl_eraseIdx_append {α : Type} (idxs : List ℕ) :
    ∀ (l t : List α), idxs.Pairwise (· > ·) → (∀ i ∈ idxs, i < l.length) →
    idxs.foldl (fun acc i => acc.eraseIdx i) (l ++ t)
      = idxs.foldl (fun acc i => acc.eraseIdx i) l ++ t := by
  induction idxs with
  | nil => intro l t _ _; rfl
  | cons i rest ih =>
    intro l t hdesc hlt
    have hi : i < l.length := hlt i (List.mem_cons_self i rest)
    simp only [List.foldl_cons]
    rw [eraseIdx_append_left t l i hi]
    refine ih (l.eraseIdx i) t (List.pairwise_cons.1 hdesc).2 ?_
    intro j hj
    have hji : j < i := (List.pairwise_cons.1 hdesc).1 j hj
    have hlen : (l.eraseIdx i).length + 1 = l.length :=
      List.length_eraseIdx_add_one hi
    omega

/-- Erasing a strictly descending list of valid indices never leaves the
current list's bounds, so the bounds-guarded removal agrees with plain
`eraseIdx`. -/
theorem foldl_eraseIdx_guarded {α : Type} (idxs : List ℕ) :
    ∀ l : List α, idxs.Pairwise (· > ·) → (∀ i ∈ idxs, i < l.length) →
    idxs.foldl (fun acc i => if i < acc.length then acc.eraseIdx i else acc) l
      = idxs.foldl (fun acc i => acc.eraseIdx i) l := by
  induction idxs with
  | nil => intro l _ _; rfl
  | cons i rest ih =>
    intro l hdesc hlt
    have hi : i < l.length := hlt i (List.mem_cons_self i rest)
    simp only [List.foldl_cons, if_pos hi]
    refine ih (l.eraseIdx i) (List.pairwise_cons.1 hdesc).2 ?_
    intro j hj
    have hji : j < i := (List.pairwise_cons.1 hdesc).1 j hj
    have hlen : (l.eraseIdx i).length + 1 = l.length :=
      List.length_eraseIdx_add_one hi
    omega

theorem enumFrom_append {α : Type} (l t : List α) :
    ∀ n : ℕ, (l ++ t).enumFrom n = l.enumFrom n ++ t.enumFrom (n + l.length) := by
  induction l with
  | nil => intro n; simp
  | cons a l ih =>
    intro n
    have harith : n + 1 + l.length = n + (l.length + 1) := by omega
    simp only [List.cons_append, List.enumFrom, List.length_cons,
      List.append_eq, ih (n + 1), harith]

theorem enum_concat {α : Type} (l : List α) (a : α) :
    (l ++ [a]).enum = l.enum ++ [(l.length, a)] := by
  show (l ++ [a]).enumFrom 0 = l.enumFrom 0 ++ [(l.length, a)]
  rw [enumFrom_append l [a] 0]
  simp [List.enumFrom]

/-- Removing, from the right, the (descending) indices of the elements
satisfying `q` is the same as filtering them out. -/
theorem foldl_eraseIdx_rev_filter {α : Type} (q : α → Bool) :
    ∀ l : List α,
    (((l.enum.filter (fun p => q p.2)).map Prod.fst).reverse).foldl
        (fun acc i => acc.eraseIdx i) l
      = l.filter (fun x => !(q x)) := by
  intro l
  induction l using List.reverseRecOn with
  | nil => rfl
  | append_singleton l a ih =>
    have hmemlt : ∀ i ∈ (l.enum.filter (fun p => q p.2)).map Prod.fst,
        i < l.length := by
      intro i hi
      rcases List.mem_map.1 hi with ⟨p, hp, rfl⟩
      have hp2 : p ∈ l.enum := List.mem_of_mem_filter hp
      have : p.1 ∈ l.enum.map Prod.fst := List.mem_map_of_mem Prod.fst hp2
      rw [List.enum_map_fst] at this
      exact List.mem_range.1 this
    have hasc : ((l.enum.filter (fun p => q p.2)).map Prod.fst).Pairwise
        (· < ·) := by
      have hsub : List.Sublist ((l.enum.filter (fun p => q p.2)).map Prod.fst)
          (l.enum.map Prod.fst) :=
        (List.filter_sublist l.enum).map Prod.fst
      rw [List.enum_map_fst] at hsub
      exact (List.pairwise_lt_range l.length).sublist hsub
    rw [enum_concat, List.filter_append, List.map_append, List.reverse_append]
    by_cases hqa : q a
    · have h1 : List.filter (fun p => q p.2) [(l.length, a)] = [(l.length, a)] := by
        simp [hqa]
      have h2 : List.filter (fun x => !q x) [a] = [] := by simp [hqa]
      rw [h1]
      simp only [List.map_cons, List.map_nil, List.reverse_cons,
        List.reverse_nil, List.nil_append, List.cons_append, List.foldl_cons]
      rw [eraseIdx_concat_self l a, ih, List.filter_append, h2,
        List.append_nil]
    · have h1 : List.filter (fun p => q p.2) [(l.length, a)] = [] := by
        simp [hqa]
      have h2 : List.filter (fun x => !q x) [a] = [a] := by simp [hqa]
      rw [h1]
      simp only [List.map_nil, List.reverse_nil, List.nil_append]
      rw [foldl_eraseIdx_append _ l [a]
        (List.pairwise_reverse.2 (by simpa using hasc))
        (fun i hi => hmemlt i (List.mem_reverse.1 hi)), ih]
      rw [List.filter_append, h2]

/-! ## Lemmas: the settlement pass -/

/-- Settling the legs of one strategy: strategies and initial cash are
untouched; each expired leg adds its payoff to cash twice (once via the
direct `cash +=`, once via `record_trade`) and appends one ledger entry with
the payoff as cash flow; unexpired legs change nothing. -/
theorem settleLegs_foldl (spot : ℚ) (date : ℤ) (i : ℕ) (sname : String)
    (legs : List OptionLeg) :
    ∀ p : Portfolio,
    (legs.foldl (settleLeg spot date i sname) p).strategies = p.strategies ∧
    (legs.foldl (settleLeg spot date i sname) p).initial_cash
      = p.initial_cash ∧
    (legs.foldl (settleLeg spot date i sname) p).cash
      = p.cash + 2 *
        ((legs.filter (fun leg => decide (leg.contract.expiry ≤ date))).map
          (fun leg => leg.payoff spot)).sum ∧
    (legs.foldl (settleLeg spot date i sname) p).trade_history.map
        TradeRecord.flowIndex
      = p.trade_history.map TradeRecord.flowIndex ++
        ((legs.filter (fun leg => decide (leg.contract.expiry ≤ date))).map
          (fun leg => (leg.payoff spot, some i))) := by
  induction legs with
  | nil => intro p; simp
  | cons leg rest ih =>
    intro p
    by_cases h : leg.contract.expiry ≤ date
    · have hstep : settleLeg spot date i sname p leg =
        { p with
          cash := p.cash + leg.payoff spot + leg.payoff spot
          trade_history := p.trade_history ++
            [{ date := date, description := "Expiration: " ++ sname,
               cash_flow := leg.payoff spot, strategy_index := some i,
               cash_balance := p.cash + leg.payoff spot + leg.payoff spot }] } := by
        simp [settleLeg, h, Portfolio.record_trade]
      obtain ⟨h1, h2, h3, h4⟩ := ih (settleLeg spot date i sname p leg)
      refine ⟨?_, ?_, ?_, ?_⟩
      · rw [List.foldl_cons, h1, hstep]
      · rw [List.foldl_cons, h2, hstep]
      · rw [List.foldl_cons, h3, hstep]
        simp [List.filter_cons, h]
        ring
      · rw [List.foldl_cons, h4, hstep]
        simp [List.filter_cons, h, TradeRecord.flowIndex]
    · have hstep : settleLeg spot date i sname p leg = p := by
        simp [settleLeg, h]
      obtain ⟨h1, h2, h3, h4⟩ := ih p
      have hfil : (leg :: rest).filter
          (fun leg => decide (leg.contract.expiry ≤ date))
        = rest.filter (fun leg => decide (leg.contract.expiry ≤ date)) := by
        simp [List.filter_cons, h]
      simp only [List.foldl_cons, hstep, hfil]
      exact ⟨h1, h2, h3, h4⟩

/-- The settlement pass over an arbitrary enumerated strategy list. -/
theorem settleEntries_foldl (spot : ℚ) (date : ℤ)
    (entries : List (ℕ × OptionStrategy)) :
    ∀ q : Portfolio,
    (entries.foldl
        (fun acc entry =>
          entry.2.legs.foldl (settleLeg spot date entry.1 entry.2.name) acc)
        q).strategies = q.strategies ∧
    (entries.foldl
        (fun acc entry =>
          entry.2.legs.foldl (settleLeg spot date entry.1 entry.2.name) acc)
        q).initial_cash = q.initial_cash ∧
    (entries.foldl
        (fun acc entry =>
          entry.2.legs.foldl (settleLeg spot date entry.1 entry.2.name) acc)
        q).cash
      = q.cash + 2 *
        (((entries.map (fun entry =>
            (entry.2.legs.filter
              (fun leg => decide (leg.contract.expiry ≤ date))).map
              (fun leg => (leg.payoff spot, some entry.1)))).flatten.map
          Prod.fst).sum) ∧
    (entries.foldl
        (fun acc entry =>
          entry.2.legs.foldl (settleLeg spot date entry.1 entry.2.name) acc)
        q).trade_history.map TradeRecord.flowIndex
      = q.trade_history.map TradeRecord.flowIndex ++
        (entries.map (fun entry =>
          (entry.2.legs.filter
            (fun leg => decide (leg.contract.expiry ≤ date))).map
            (fun leg => (leg.payoff spot, some entry.1)))).flatten := by
  induction entries with
  | nil => intro q; simp
  | cons entry rest ih =>
    intro q
    obtain ⟨g1, g2, g3, g4⟩ := settleLegs_foldl spot date entry.1 entry.2.name
      entry.2.legs q
    obtain ⟨h1, h2, h3, h4⟩ := ih
      (entry.2.legs.foldl (settleLeg spot date entry.1 entry.2.name) q)
    refine ⟨?_, ?_, ?_, ?_⟩
    · rw [List.foldl_cons, h1, g1]
    · rw [List.foldl_cons, h2, g2]
    · rw [List.foldl_cons, h3, g3]
      simp only [List.map_cons, List.flatten_cons, List.map_append,
        List.sum_append]
      have : ((entry.2.legs.filter
          (fun leg => decide (leg.contract.expiry ≤ date))).map
          (fun leg => (leg.payoff spot, some entry.1))).map Prod.fst
        = (entry.2.legs.filter
            (fun leg => decide (leg.contract.expiry ≤ date))).map
            (fun leg => leg.payoff spot) := by
        rw [List.map_map]; rfl
      rw [this]; ring
    · rw [List.foldl_cons, h4, g4]
      simp [List.map_map]

/-- Folding `remove_strategy` changes only the strategy list, which evolves
by the bounds-guarded `eraseIdx`. -/
theorem removeFold_spec (idxs : List ℕ) :
    ∀ p : Portfolio,
    (idxs.foldl (fun q i => q.remove_strategy i) p).strategies
      = idxs.foldl
          (fun l i => if i < l.length then l.eraseIdx i else l)
          p.strategies ∧
    (idxs.foldl (fun q i => q.remove_strategy i) p).initial_cash
      = p.initial_cash ∧
    (idxs.foldl (fun q i => q.remove_strategy i) p).cash = p.cash ∧
    (idxs.foldl (fun q i => q.remove_strategy i) p).trade_history
      = p.trade_history := by
  induction idxs with
  | nil => intro p; exact ⟨rfl, rfl, rfl, rfl⟩
  | cons i rest ih =>
    intro p
    obtain ⟨h1, h2, h3, h4⟩ := ih (p.remove_strategy i)
    have hstrat : (p.remove_strategy i).strategies
        = if i < p.strategies.length then p.strategies.eraseIdx i
          else p.strategies := by
      by_cases h : i < p.strategies.length <;>
        simp [Portfolio.remove_strategy, h]
    have hrest : (p.remove_strategy i).initial_cash = p.initial_cash ∧
        (p.remove_strategy i).cash = p.cash ∧
        (p.remove_strategy i).trade_history = p.trade_history := by
      by_cases h : i < p.strategies.length <;>
        simp [Portfolio.remove_strategy, h]
    refine ⟨?_, ?_, ?_, ?_⟩
    · simp only [List.foldl_cons]
      rw [h1, hstrat]
    · simp only [List.foldl_cons]
      rw [h2, hrest.1]
    · simp only [List.foldl_cons]
      rw [h3, hrest.2.1]
    · simp only [List.foldl_cons]
      rw [h4, hrest.2.2]

/-- Characterisation of `_handle_expirations`: the strategy list is filtered
down to the strategies with no expired leg (the marked indices, removed in
descending order); the cash balance gains twice the payoff of every expired
leg (the direct credit plus the one inside `record_trade`); the ledger gains
exactly one record per expired leg, in iteration order, with the payoff as
cash flow. -/
theorem handleExpirations_spec (spot : ℚ) (date : ℤ) (p : Portfolio) :
    (handleExpirations spot date p).strategies
      = p.strategies.filter
          (fun s => !(s.legs.any
            (fun leg => decide (leg.contract.expiry ≤ date)))) ∧
    (handleExpirations spot date p).initial_cash = p.initial_cash ∧
    (handleExpirations spot date p).cash
      = p.cash + 2 * ((expiredSettlements spot date p.strategies).map
          Prod.fst).sum ∧
    (handleExpirations spot date p).trade_history.map TradeRecord.flowIndex
      = p.trade_history.map TradeRecord.flowIndex ++
        expiredSettlements spot date p.strategies := by
  obtain ⟨s1, s2, s3, s4⟩ :=
    settleEntries_foldl spot date p.strategies.enum p
  set p1 := settleExpirations spot date p with hp1
  have hs1 : p1.strategies = p.strategies := s1
  have hs2 : p1.initial_cash = p.initial_cash := s2
  have hs3 : p1.cash = p.cash +
      2 * ((expiredSettlements spot date p.strategies).map Prod.fst).sum := s3
  have hs4 : p1.trade_history.map TradeRecord.flowIndex
      = p.trade_history.map TradeRecord.flowIndex ++
        expiredSettlements spot date p.strategies := s4
  obtain ⟨r1, r2, r3, r4⟩ :=
    removeFold_spec (sortDesc (strategiesToRemove date p.strategies)) p1
  have hmark := strategiesToRemove_eq date p.strategies
  set R := (p.strategies.enum.filter
    (fun q => q.2.legs.any
      (fun leg => decide (leg.contract.expiry ≤ date)))).map Prod.fst with hR
  have hmemlt : ∀ i ∈ R, i < p.strategies.length := by
    intro i hi
    rcases List.mem_map.1 hi with ⟨pr, hpr, rfl⟩
    have hpr2 : pr ∈ p.strategies.enum := List.mem_of_mem_filter hpr
    have : pr.1 ∈ p.strategies.enum.map Prod.fst :=
      List.mem_map_of_mem Prod.fst hpr2
    rw [List.enum_map_fst] at this
    exact List.mem_range.1 this
  have hasc : R.Pairwise (· < ·) := by
    have hsub : List.Sublist R (p.strategies.enum.map Prod.fst) :=
      (List.filter_sublist p.strategies.enum).map Prod.fst
    rw [List.enum_map_fst] at hsub
    exact (List.pairwise_lt_range p.strategies.length).sublist hsub
  have hsort : sortDesc (strategiesToRemove date p.strategies) = R.reverse := by
    rw [hmark]
    exact sortDesc_of_ascending R hasc
  have hdesc : R.reverse.Pairwise (· > ·) :=
    List.pairwise_reverse.2 (by simpa using hasc)
  have hrevlt : ∀ i ∈ R.reverse, i < p.strategies.length := by
    intro i hi; exact hmemlt i (List.mem_reverse.1 hi)
  refine ⟨?_, ?_, ?_, ?_⟩
  · have hfold := foldl_eraseIdx_rev_filter
      (fun s => s.legs.any (fun leg => decide (leg.contract.expiry ≤ date)))
      p.strategies
    show (handleExpirations spot date p).strategies = _
    have hr1 : (handleExpirations spot date p).strategies
        = (sortDesc (strategiesToRemove date p.strategies)).foldl
            (fun l i => if i < l.length then l.eraseIdx i else l)
            p1.strategies := r1
    rw [hr1, hsort, hs1, foldl_eraseIdx_guarded R.reverse p.strategies hdesc
      hrevlt, hR]
    exact hfold
  · show (handleExpirations spot date p).initial_cash = _
    rw [show (handleExpirations spot date p).initial_cash = p1.initial_cash
      from r2, hs2]
  · show (handleExpirations spot date p).cash = _
    rw [show (handleExpirations spot date p).cash = p1.cash from r3, hs3]
  · show (handleExpirations spot date p).trade_history.map
        TradeRecord.flowIndex = _
    rw [show (handleExpirations spot date p).trade_history
      = p1.trade_history from r4, hs4]

/-! ## Run-level persistence of removals -/

/-- A day's processing never adds a strategy to the portfolio: a strategy
absent before `_process_day` is absent afterwards (the only change to the
strategy list is the filtering performed by `_handle_expirations`). -/
theorem processDay_not_mem (cfg : BacktestConfig) (md : MarketDataQ)
    (model : PricingModelQ) (st : EngineState) (date : ℤ) (st1 : EngineState)
    (X : OptionStrategy) (h : processDay cfg md model st date = some st1)
    (hX : X ∉ st.portfolio.strategies) : X ∉ st1.portfolio.strategies := by
  cases hspot : md.get_spot date with
  | none => simp [processDay, hspot] at h
  | some spot =>
    have hport : st1.portfolio = handleExpirations spot date st.portfolio := by
      simp only [processDay, hspot] at h
      cases h
      rfl
    rw [hport, (handleExpirations_spec spot date st.portfolio).1]
    intro hmem
    exact hX (List.mem_of_mem_filter hmem)

/-- Over any list of processed days, a strategy absent from the portfolio
stays absent. -/
theorem runDates_not_mem (cfg : BacktestConfig) (md : MarketDataQ)
    (model : PricingModelQ) (ds : List ℤ) :
    ∀ (st st1 : EngineState) (X : OptionStrategy),
    runDates cfg md model st ds = some st1 →
    X ∉ st.portfolio.strategies → X ∉ st1.portfolio.strategies := by
  induction ds with
  | nil =>
    intro st st1 X h hX
    cases h
    exact hX
  | cons d rest ih =>
    intro st st1 X h hX
    cases hd : processDay cfg md model st d with
    | none => rw [runDates, hd] at h; cases h
    | some st2 =>
      rw [runDates, hd] at h
      exact ih st2 st1 X h (processDay_not_mem cfg md model st d st2 X hd hX)

/-- Claim C8.  Once a strategy owns a leg with `expiry <= date`,
`_handle_expirations` on that date removes it from the strategy list — the
marked indices are erased in descending order, which this characterisation
shows amounts to filtering out, exactly once, every strategy owning an
expired leg while every other strategy is kept — and the strategy is absent
from the portfolio in every engine state produced by processing any further
days, hence is never revalued again (a day's valuation reads only the
current strategy list). -/
theorem expired_strategy_removed_once_never_revalued (spot : ℚ) (date : ℤ)
    (p : Portfolio) (X : OptionStrategy)
    (hexp : X.legs.any (fun leg => decide (leg.contract.expiry ≤ date)) = true) :
    (handleExpirations spot date p).strategies
      = p.strategies.filter
          (fun s => !(s.legs.any
            (fun leg => decide (leg.contract.expiry ≤ date)))) ∧
    X ∉ (handleExpirations spot date p).strategies ∧
    (∀ (cfg : BacktestConfig) (md : MarketDataQ) (model : PricingModelQ)
       (ds : List ℤ) (st st1 : EngineState),
       st.portfolio = handleExpirations spot date p →
       runDates cfg md model st ds = some st1 →
       X ∉ st1.portfolio.strategies) := by
  have h1 := (handleExpirations_spec spot date p).1
  have hnot : X ∉ (handleExpirations spot date p).strategies := by
    rw [h1]
    intro hmem
    have := (List.mem_filter.1 hmem).2
    rw [hexp] at this
    simp at this
  refine ⟨h1, hnot, ?_⟩
  intro cfg md model ds st st1 hst hrun
  refine runDates_not_mem cfg md model ds st st1 X hrun ?_
  rw [hst]
  exact hnot

/-- Witness for C8 at explicit inputs: the long-call strategy of `p3` has a
leg expired on day 0 and is gone from the portfolio after
`_handle_expirations`. -/
theorem expired_strategy_removed_once_never_revalued_witness :
    stratS.legs.any (fun leg => decide (leg.contract.expiry ≤ (0 : ℤ)))
        = true ∧
    stratS ∉ (handleExpirations 100 0 p3).strategies :=
  ⟨by decide,
   (expired_strategy_removed_once_never_revalued 100 0 p3 stratS
     (by decide)).2.1⟩

/-- Claim C10.  When `_handle_expirations` removes a strategy, only its legs
with `expiry <= date` are settled: the cash change and the appended ledger
records range over exactly the expired legs (`expiredSettlements`), so a leg
with `expiry > date` belonging to a removed strategy is discarded with no
settlement cash flow and no trade record — its remaining value is silently
dropped with the strategy.  (The factor 2 in the cash change is the code's
double credit: a direct `cash +=` plus the one inside `record_trade`.) -/
theorem unexpired_legs_discarded_silently (spot : ℚ) (date : ℤ)
    (p : Portfolio) :
    (handleExpirations spot date p).strategies
      = p.strategies.filter
          (fun s => !(s.legs.any
            (fun leg => decide (leg.contract.expiry ≤ date)))) ∧
    (handleExpirations spot date p).cash
      = p.cash + 2 * ((expiredSettlements spot date p.strategies).map
          Prod.fst).sum ∧
    (handleExpirations spot date p).trade_history.map TradeRecord.flowIndex
      = p.trade_history.map TradeRecord.flowIndex ++
        expiredSettlements spot date p.strategies :=
  ⟨(handleExpirations_spec spot date p).1,
   (handleExpirations_spec spot date p).2.2.1,
   (handleExpirations_spec spot date p).2.2.2⟩

/-! ## Cash conservation (claim C3) -/

/-- `record_trade` alone preserves the ledger invariant `cash = initial_cash
+ sum of recorded cash flows`, over any list of trades. -/
theorem recordTrades_conservation
    (trades : List (ℤ × String × ℚ × Option ℕ)) :
    ∀ p : Portfolio,
    p.cash = p.initial_cash + (p.trade_history.map TradeRecord.cash_flow).sum →
    (trades.foldl
        (fun q t => q.record_trade t.1 t.2.1 t.2.2.1 t.2.2.2) p).cash
      = (trades.foldl
          (fun q t => q.record_trade t.1 t.2.1 t.2.2.1 t.2.2.2) p).initial_cash
        + ((trades.foldl
            (fun q t => q.record_trade t.1 t.2.1 t.2.2.1 t.2.2.2)
            p).trade_history.map TradeRecord.cash_flow).sum := by
  induction trades with
  | nil => intro p hp; exact hp
  | cons t rest ih =>
    intro p hp
    simp only [List.foldl_cons]
    refine ih (p.record_trade t.1 t.2.1 t.2.2.1 t.2.2.2) ?_
    simp [Portfolio.record_trade, hp]
    ring

/-- Claim C3 (evaluation at the failing input).  Settling the expired
long-call of `p3` on day 0 at spot 100 pays off 1000, but the handler adds
the payoff to cash directly *and* records it through `record_trade` (which
adds it again): the final cash is 3000 while `initial_cash + sum of recorded
cash flows` is only 2000, so the conservation invariant fails on the
settlement trade. -/
theorem settlement_breaks_cash_conservation :
    (handleExpirations 100 0 p3).cash = 3000 ∧
    ((handleExpirations 100 0 p3).trade_history.map
      TradeRecord.cash_flow).sum = 1000 ∧
    p3.initial_cash = 1000 ∧ p3.trade_history = [] ∧
    (handleExpirations 100 0 p3).cash
      ≠ p3.initial_cash + ((handleExpirations 100 0 p3).trade_history.map
          TradeRecord.cash_flow).sum := by
  norm_num [handleExpirations, settleExpirations, settleLeg,
    Portfolio.record_trade, strategiesToRemove, sortDesc, insertDesc,
    Portfolio.remove_strategy, OptionLeg.payoff, OptionContract.payoff,
    OptionContract.intrinsic_value, p3, stratS, List.enum, List.enumFrom]

/-! ## Attribution and first-day behaviour of the daily loop
(claims C1 and C7) -/

/-- Claim C1 (evaluation at the failing input).  In the three-day run
`sFinal`, attribution runs on day 2 (its row's components are the output of
`_calculate_pnl_attribution`), and the six components sum to `2000` — the
*previous* row's `daily_pnl` (read from `daily_results[-1]` before today's
row is appended) — while the `daily_pnl` recorded in the same day-2 row is
`0`.  The components therefore do not sum to that day's own P&L. -/
theorem attribution_closes_against_previous_day_pnl :
    sFinal.daily_results.length = 3 ∧
    (sFinal.daily_results.getD 1 DailyResult.dummy).daily_pnl = 2000 ∧
    ((sFinal.daily_results.getD 2 DailyResult.dummy).attribution).total
      = 2000 ∧
    (sFinal.daily_results.getD 2 DailyResult.dummy).daily_pnl = 0 ∧
    ((sFinal.daily_results.getD 2 DailyResult.dummy).attribution).total
      ≠ (sFinal.daily_results.getD 2 DailyResult.dummy).daily_pnl := by
  norm_num [sFinal, runBacktest, runDates, processDay, calcPnlAttribution,
    handleExpirations, settleExpirations, settleLeg, Portfolio.record_trade,
    strategiesToRemove, sortDesc, insertDesc, Portfolio.remove_strategy,
    OptionLeg.payoff, OptionContract.payoff, OptionContract.intrinsic_value,
    Portfolio.value, Portfolio.greeksValue, OptionStrategy.value,
    OptionStrategy.greeksValue, OptionLeg.priceValue, OptionLeg.greeksValue,
    Greeks.zero, Greeks.add, Greeks.smul, PnlAttribution.zero,
    PnlAttribution.total, DailyResult.dummy, s0, addStrategy, initEngine,
    Portfolio.add_strategy, cfgS, mdS, modelS, stratS, List.enum,
    List.enumFrom, List.filter]

/-- Claim C7 (evaluation at the failing input).  In the run `sFinal`, day 1
(the second processed day) emits the all-zero attribution row, because the
code's "first day" test is `prev_portfolio_value != initial_capital` and the
day-0 expiration settlement left the previous portfolio value at exactly the
initial capital.  The previous day's spot is available
(`get_spot 0 = some 100`), and `_calculate_pnl_attribution` evaluated at
day 1's state and inputs returns `pnl_delta = 500 ≠ 0`: the attribution
computation is *not* executed on this subsequent day, and its zero row is
re-emitted after the first day. -/
theorem zero_attribution_reemitted_after_first_day :
    sFinal.daily_results.length = 3 ∧
    (sFinal.daily_results.getD 0 DailyResult.dummy).attribution
      = PnlAttribution.zero ∧
    (sFinal.daily_results.getD 1 DailyResult.dummy).attribution
      = PnlAttribution.zero ∧
    mdS.get_spot 0 = some 100 ∧
    sDay0.prev_portfolio_value = cfgS.initial_capital ∧
    (calcPnlAttribution mdS sDay0 1 105 Greeks.zero).pnl_delta = 500 ∧
    calcPnlAttribution mdS sDay0 1 105 Greeks.zero ≠ PnlAttribution.zero := by
  norm_num [sFinal, sDay0, runBacktest, runDates, processDay,
    calcPnlAttribution, handleExpirations, settleExpirations, settleLeg,
    Portfolio.record_trade, strategiesToRemove, sortDesc, insertDesc,
    Portfolio.remove_strategy, OptionLeg.payoff, OptionContract.payoff,
    OptionContract.intrinsic_value, Portfolio.value, Portfolio.greeksValue,
    OptionStrategy.value, OptionStrategy.greeksValue, OptionLeg.priceValue,
    OptionLeg.greeksValue, Greeks.zero, Greeks.add, Greeks.smul,
    PnlAttribution.zero, PnlAttribution.total, DailyResult.dummy, s0,
    addStrategy, initEngine, Portfolio.add_strategy, cfgS, mdS, modelS,
    stratS, List.enum, List.enumFrom, List.filter]

/-! ## Bump-and-revalue Greeks (claim C2) -/

/-- Claim C2 (evaluation at the failing input).  Every bump helper returns
the market context unchanged — the shock is never written into the copy —
so for *any* base model and any inputs the "bumped" revaluations coincide
with the base price and delta, gamma, vega and rho all evaluate to `0`.  In
particular, for the base model whose price equals the market spot (true
central-difference delta 1) on the flat-100 context, the computed delta is
`0`, not the central difference of genuinely shocked prices. -/
theorem bump_helpers_do_not_shock :
    (∀ (md : MarketDataQ) (date : ℤ) (bump : ℚ), bumpSpot md date bump = md) ∧
    (∀ (md : MarketDataQ) (date : ℤ) (o : OptionContract) (bump : ℚ),
      bumpVol md date o bump = md) ∧
    (∀ (md : MarketDataQ) (date : ℤ) (bump : ℚ), bumpRate md date bump = md) ∧
    (∀ (basePrice : OptionContract → ℤ → MarketDataQ → ℚ) (bump_size : ℚ)
       (o : OptionContract) (date : ℤ) (md : MarketDataQ) (g : Greeks ℚ),
      surfaceGreeksModel basePrice bump_size o date md = some g →
      g.delta = 0 ∧ g.gamma = 0 ∧ g.vega = 0 ∧ g.rho = 0) ∧
    surfaceGreeksModel spotPriceModel (1/100) cATM 0 mdFlat100
      = some ⟨0, 0, 0, 0, 0⟩ := by
  refine ⟨fun _ _ _ => rfl, fun _ _ _ _ => rfl, fun _ _ _ => rfl, ?_, ?_⟩
  · intro basePrice bump_size o date md g h
    cases hspot : md.get_spot date with
    | none => rw [surfaceGreeksModel, hspot] at h; cases h
    | some S =>
      rw [surfaceGreeksModel, hspot] at h
      cases h
      refine ⟨?_, ?_, ?_, ?_⟩
      · simp [bumpSpot]
      · simp only [bumpSpot]
        rw [div_eq_zero_iff]
        exact Or.inl (by ring)
      · simp [bumpVol]
      · simp [bumpRate]
  · norm_num [surfaceGreeksModel, bumpSpot, bumpVol, bumpRate,
      spotPriceModel, cATM, mdFlat100]

/-- Witness for claim C2's theorem at explicit inputs: the bump helpers act
as the identity on the flat-100 context, and the Greeks dictionary computed
there for the spot-valued base model has zero delta, gamma, vega and rho. -/
theorem bump_helpers_do_not_shock_witness :
    bumpSpot mdFlat100 0 1 = mdFlat100 ∧
    ((⟨0, 0, 0, 0, 0⟩ : Greeks ℚ).delta = 0 ∧
      (⟨0, 0, 0, 0, 0⟩ : Greeks ℚ).gamma = 0 ∧
      (⟨0, 0, 0, 0, 0⟩ : Greeks ℚ).vega = 0 ∧
      (⟨0, 0, 0, 0, 0⟩ : Greeks ℚ).rho = 0) :=
  ⟨bump_helpers_do_not_shock.1 mdFlat100 0 1,
   bump_helpers_do_not_shock.2.2.2.1 spotPriceModel (1/100) cATM 0 mdFlat100
     ⟨0, 0, 0, 0, 0⟩ bump_helpers_do_not_shock.2.2.2.2⟩

/-! ## Surface-date selection (claim C5) -/

theorem mem_insertAsc (x y : ℤ) (l : List ℤ) :
    y ∈ insertAsc x l ↔ y = x ∨ y ∈ l := by
  induction l with
  | nil => simp [insertAsc]
  | cons z zs ih =>
    by_cases h : x ≤ z
    · simp [insertAsc, h]
    · simp [insertAsc, h, ih]
      tauto

theorem mem_sortAsc (l : List ℤ) (y : ℤ) : y ∈ sortAsc l ↔ y ∈ l := by
  induction l with
  | nil => simp [sortAsc]
  | cons z zs ih =>
    show y ∈ insertAsc z (sortAsc zs) ↔ _
    rw [mem_insertAsc]
    simp [ih]

/-- Specification of the `min(..., key=abs difference)` fold: the result is
the seed or a list member, and its key is minimal among the seed and every
member. -/
theorem argminAbsDate_spec (date : ℤ) (ds : List ℤ) :
    ∀ d : ℤ,
    (argminAbsDate date d ds = d ∨ argminAbsDate date d ds ∈ ds) ∧
    |argminAbsDate date d ds - date| ≤ |d - date| ∧
    ∀ x ∈ ds, |argminAbsDate date d ds - date| ≤ |x - date| := by
  induction ds with
  | nil => intro d; simp [argminAbsDate]
  | cons z zs ih =>
    intro d
    have hstep : argminAbsDate date d (z :: zs)
        = argminAbsDate date (if |z - date| < |d - date| then z else d) zs :=
      rfl
    by_cases h : |z - date| < |d - date|
    · obtain ⟨m1, m2, m3⟩ := ih z
      rw [hstep, if_pos h]
      refine ⟨?_, ?_, ?_⟩
      · rcases m1 with m1 | m1
        · exact Or.inr (by rw [m1]; exact List.mem_cons_self z zs)
        · exact Or.inr (List.mem_cons_of_mem z m1)
      · exact m2.trans h.le
      · intro x hx
        rcases List.mem_cons.1 hx with rfl | hx
        · exact m2
        · exact m3 x hx
    · obtain ⟨m1, m2, m3⟩ := ih d
      rw [hstep, if_neg h]
      refine ⟨?_, ?_, ?_⟩
      · rcases m1 with m1 | m1
        · exact Or.inl m1
        · exact Or.inr (List.mem_cons_of_mem z m1)
      · exact m2
      · intro x hx
        rcases List.mem_cons.1 hx with rfl | hx
        · exact m2.trans (not_lt.1 h)
        · exact m3 x hx

/-- Claim C5, amended.  The surface date chosen by `get_implied_vol` is the
query date itself when a surface exists for it; otherwise it is a surface
date minimising the absolute day distance to the query date (first in
ascending key order on ties) — which may lie after the query date. -/
theorem selectSurfaceDate_nearest (keys : List ℤ) (date d : ℤ)
    (h : selectSurfaceDate keys date = some d) :
    d ∈ keys ∧ (∀ e ∈ keys, |d - date| ≤ |e - date|) ∧
    (date ∈ keys → d = date) := by
  by_cases hmem : date ∈ keys
  · rw [selectSurfaceDate, if_pos hmem] at h
    cases h
    exact ⟨hmem, fun e _ => by simp, fun _ => rfl⟩
  · rw [selectSurfaceDate, if_neg hmem] at h
    cases heq : sortAsc keys with
    | nil => rw [heq] at h; cases h
    | cons z zs =>
      rw [heq] at h
      cases h
      obtain ⟨m1, m2, m3⟩ := argminAbsDate_spec date zs z
      have hz : z ∈ keys := (mem_sortAsc keys z).1 (heq ▸ List.mem_cons_self z zs)
      refine ⟨?_, ?_, fun hd => absurd hd hmem⟩
      · rcases m1 with m1 | m1
        · rw [m1]; exact hz
        · exact (mem_sortAsc keys _).1 (heq ▸ List.mem_cons_of_mem z m1)
      · intro e he
        have : e ∈ sortAsc keys := (mem_sortAsc keys e).2 he
        rw [heq] at this
        rcases List.mem_cons.1 this with rfl | hzs
        · exact m2
        · exact m3 e hzs

/-- Witness for the amended claim C5 at explicit inputs. -/
theorem selectSurfaceDate_nearest_witness :
    selectSurfaceDate [0, 10] 8 = some 10 ∧ (10 : ℤ) ∈ [(0 : ℤ), 10] ∧
    ∀ e ∈ [(0 : ℤ), 10], |(10 : ℤ) - 8| ≤ |e - 8| :=
  ⟨by decide, (selectSurfaceDate_nearest [0, 10] 8 10 (by decide)).1,
   (selectSurfaceDate_nearest [0, 10] 8 10 (by decide)).2.1⟩

/-- Claim C5, counterexample.  Surfaces exist on days 0 and 10; the query
date is 8, which has no surface of its own but does have an earlier one
(day 0).  The fallback picks day 10 — a future date — and
`get_implied_vol` returns that surface's vol `0.4`, not the prior surface's
`0.3`. -/
theorem surface_fallback_uses_future_date :
    selectSurfaceDate [0, 10] 8 = some 10 ∧
    (0 : ℤ) ∈ [(0 : ℤ), 10] ∧ (0 : ℤ) < 8 ∧ ¬(10 : ℤ) ≤ 8 ∧
    getImpliedVolFromSurfaces [(0, vsDay0), (10, vsDay10)] 8 100 100
      = 0.4 ∧
    vsDay0.iv 100 100 = 0.3 := by
  refine ⟨by decide, by decide, by decide, by decide, ?_, ?_⟩
  · have h1 : getImpliedVolFromSurfaces [(0, vsDay0), (10, vsDay10)] 8 100 100
        = vsDay10.iv 100 100 := rfl
    rw [h1]
    norm_num [VolSurfaceData.iv, vsDay10, npClip, max_def, min_def]
  · norm_num [VolSurfaceData.iv, npClip, vsDay0, max_def, min_def]

/-! ## Volatility-surface lookup (claim C6) -/

theorem listMin_le (l : List ℝ) : ∀ y ∈ l, listMin l ≤ y := by
  induction l with
  | nil => intro y hy; cases hy
  | cons x xs ih =>
    intro y hy
    cases xs with
    | nil =>
      rcases List.mem_cons.1 hy with rfl | hy
      · exact le_refl y
      · cases hy
    | cons z zs =>
      have hmin : listMin (x :: z :: zs) = min x (listMin (z :: zs)) := rfl
      rcases List.mem_cons.1 hy with rfl | hy
      · rw [hmin]; exact min_le_left _ _
      · rw [hmin]
        exact (min_le_right _ _).trans (ih y hy)

theorem idxmin_lt_length (l : List ℝ) (hne : l ≠ []) :
    idxmin l < l.length := by
  induction l with
  | nil => exact absurd rfl hne
  | cons x xs ih =>
    cases xs with
    | nil => simp [idxmin]
    | cons z zs =>
      by_cases h : x ≤ listMin (z :: zs)
      · simp [idxmin, h]
      · have : idxmin (x :: z :: zs) = idxmin (z :: zs) + 1 := by
          simp [idxmin, h]
        rw [this]
        have := ih (by simp)
        simpa using Nat.succ_lt_succ this

theorem get_idxmin (l : List ℝ) (hne : l ≠ []) (h : idxmin l < l.length) :
    l.get ⟨idxmin l, h⟩ = listMin l := by
  induction l with
  | nil => exact absurd rfl hne
  | cons x xs ih =>
    cases xs with
    | nil => simp [idxmin, listMin]
    | cons z zs =>
      by_cases hle : x ≤ listMin (z :: zs)
      · have h0 : idxmin (x :: z :: zs) = 0 := by simp [idxmin, hle]
        have hmin : listMin (x :: z :: zs) = min x (listMin (z :: zs)) := rfl
        simp only [h0] at h ⊢
        simp [hmin, min_eq_left hle]
      · have h0 : idxmin (x :: z :: zs) = idxmin (z :: zs) + 1 := by
          simp [idxmin, hle]
        have hmin : listMin (x :: z :: zs) = min x (listMin (z :: zs)) := rfl
        have hlt : idxmin (z :: zs) < (z :: zs).length := by
          have := h0 ▸ h
          simpa using Nat.lt_of_succ_lt_succ (by simpa using this)
        have := ih (by simp) hlt
        simp only [h0] at h ⊢
        rw [show ((x :: z :: zs).get ⟨idxmin (z :: zs) + 1, h⟩)
          = ((z :: zs).get ⟨idxmin (z :: zs), hlt⟩) from rfl, this, hmin,
          min_eq_right (le_of_lt (not_le.1 hle))]

/-- Claim C6.  `VolSurface.iv`: (1) expired lookups (`days_to_expiry <= 0`)
return exactly `0.0`; (2) when the interpolant evaluates without error the
result is its value clamped by `np.clip(-, 0.01, 5.0)`, hence inside
`[0.01, 5.0]`; (3) when the interpolant raises, the result is the *raw*
implied vol of the sample whose Euclidean distance in (strike, days) space
is minimal (first such sample on ties) — no clamp is applied on this
path. -/
theorem volsurface_iv_spec (vs : VolSurfaceData) (strike : ℝ) (expiry : ℤ) :
    (expiry - vs.date ≤ 0 → vs.iv strike expiry = 0) ∧
    (∀ v : ℝ, 0 < expiry - vs.date →
      vs.interpolator strike (expiry - vs.date) = some v →
      vs.iv strike expiry = npClip v (1/100) 5 ∧
      1/100 ≤ vs.iv strike expiry ∧ vs.iv strike expiry ≤ 5) ∧
    (0 < expiry - vs.date →
      vs.interpolator strike (expiry - vs.date) = none →
      vs.samples ≠ [] →
      ∃ i : ℕ, ∃ hi : i < vs.samples.length,
        vs.iv strike expiry = (vs.samples.get ⟨i, hi⟩).implied_vol ∧
        ∀ (j : ℕ) (hj : j < vs.samples.length),
          Real.sqrt (((vs.samples.get ⟨i, hi⟩).strike - strike) ^ 2 +
            (((vs.samples.get ⟨i, hi⟩).days_to_expiry : ℝ) -
              ((expiry - vs.date : ℤ) : ℝ)) ^ 2)
          ≤ Real.sqrt (((vs.samples.get ⟨j, hj⟩).strike - strike) ^ 2 +
            (((vs.samples.get ⟨j, hj⟩).days_to_expiry : ℝ) -
              ((expiry - vs.date : ℤ) : ℝ)) ^ 2)) := by
  refine ⟨?_, ?_, ?_⟩
  · intro hdays
    rw [VolSurfaceData.iv, if_pos hdays]
  · intro v hdays hint
    have hiv : vs.iv strike expiry = npClip v (1/100) 5 := by
      rw [VolSurfaceData.iv, if_neg (not_le.2 hdays), hint]
    refine ⟨hiv, ?_, ?_⟩
    · rw [hiv, npClip]
      refine le_min (le_max_right _ _) (by norm_num)
    · rw [hiv, npClip]
      exact min_le_right _ _
  · intro hdays hint hne
    set dists := vs.samples.map fun s =>
      Real.sqrt ((s.strike - strike) ^ 2 +
        ((s.days_to_expiry : ℝ) - ((expiry - vs.date : ℤ) : ℝ)) ^ 2)
      with hdists
    have hlen : dists.length = vs.samples.length := by
      rw [hdists, List.length_map]
    have hdne : dists ≠ [] := by
      rw [hdists]
      simpa using hne
    have hi : idxmin dists < vs.samples.length :=
      hlen ▸ idxmin_lt_length dists hdne
    refine ⟨idxmin dists, hi, ?_, ?_⟩
    · rw [VolSurfaceData.iv, if_neg (not_le.2 hdays), hint]
      show ((vs.samples.get? (idxmin dists)).map VolSample.implied_vol).getD 0
          = (vs.samples.get ⟨idxmin dists, hi⟩).implied_vol
      rw [List.get?_eq_get hi]
      rfl
    · intro j hj
      have hgi : dists.get ⟨idxmin dists, hlen.symm ▸ hi⟩
          = Real.sqrt (((vs.samples.get ⟨idxmin dists, hi⟩).strike - strike) ^ 2 +
            (((vs.samples.get ⟨idxmin dists, hi⟩).days_to_expiry : ℝ) -
              ((expiry - vs.date : ℤ) : ℝ)) ^ 2) := List.get_map _
      have hgj : dists.get ⟨j, hlen.symm ▸ hj⟩
          = Real.sqrt (((vs.samples.get ⟨j, hj⟩).strike - strike) ^ 2 +
            (((vs.samples.get ⟨j, hj⟩).days_to_expiry : ℝ) -
              ((expiry - vs.date : ℤ) : ℝ)) ^ 2) := List.get_map _
      rw [← hgi, ← hgj]
      rw [get_idxmin dists hdne (hlen.symm ▸ hi)]
      exact listMin_le dists _ (List.get_mem dists _ _)

/-- Witness for claim C6 at explicit inputs: the expired branch returns 0,
the clamped branch caps the interpolant value 10 at 5, and the fallback
branch returns the raw sample vol 7 (outside the clamp interval). -/
theorem volsurface_iv_spec_witness :
    vsHigh.iv 100 0 = 0 ∧
    (1/100 ≤ vsHigh.iv 100 5 ∧ vsHigh.iv 100 5 ≤ 5) ∧
    vsFallback.iv 100 5 = 7 := by
  have h1 := (volsurface_iv_spec vsHigh 100 0).1 (by norm_num [vsHigh])
  have h2 := (volsurface_iv_spec vsHigh 100 5).2.1 10
    (by norm_num [vsHigh]) rfl
  have h3 := (volsurface_iv_spec vsFallback 100 5).2.2
    (by norm_num [vsFallback]) rfl (by simp [vsFallback])
  obtain ⟨i, hi, heq, -⟩ := h3
  have hi0 : i = 0 := by
    have hlen : vsFallback.samples.length = 1 := rfl
    omega
  subst hi0
  refine ⟨h1, ⟨h2.2.1, h2.2.2⟩, ?_⟩
  rw [heq]
  rfl

/-! ## Black-Scholes behaviour at or past expiry (claim C4) -/

/-- Claim C4, amended.  At `T <= 0` the Black-Scholes model returns exactly
the intrinsic value as the price, zero gamma/vega/theta/rho, and a delta of
`1.0` when the intrinsic value is positive and `0.0` otherwise — for calls
*and* puts alike (the code does not negate the delta of an in-the-money
put), so delta always lies in `{0, 1}`. -/
theorem bs_expiry_values (ty : OptionType) (S K r q T sigma : ℝ)
    (hT : T ≤ 0) :
    bsPrice ty S K r q T sigma = intrinsicValue ty S K ∧
    (bsGreeks ty S K r q T sigma).gamma = 0 ∧
    (bsGreeks ty S K r q T sigma).vega = 0 ∧
    (bsGreeks ty S K r q T sigma).theta = 0 ∧
    (bsGreeks ty S K r q T sigma).rho = 0 ∧
    (bsGreeks ty S K r q T sigma).delta
      = (if 0 < intrinsicValue ty S K then 1 else 0) ∧
    ((bsGreeks ty S K r q T sigma).delta = 0 ∨
      (bsGreeks ty S K r q T sigma).delta = 1) := by
  rw [bsPrice, if_pos hT, bsGreeks, if_pos hT]
  refine ⟨rfl, rfl, rfl, rfl, rfl, rfl, ?_⟩
  by_cases h : 0 < intrinsicValue ty S K <;> simp [h]

/-- Witness for the amended claim C4: an in-the-money call at expiry
(S = 110, K = 100, T = 0). -/
theorem bs_expiry_values_witness :
    (0 : ℝ) ≤ 0 ∧
    bsPrice .call 110 100 0 0 0 (1/5) = intrinsicValue .call 110 100 ∧
    ((bsGreeks .call 110 100 0 0 0 (1/5)).delta = 0 ∨
      (bsGreeks .call 110 100 0 0 0 (1/5)).delta = 1) :=
  ⟨le_refl 0, (bs_expiry_values .call 110 100 0 0 0 (1/5) (le_refl 0)).1,
   (bs_expiry_values .call 110 100 0 0 0 (1/5) (le_refl 0)).2.2.2.2.2.2⟩

/-- Claim C4, counterexample.  For an in-the-money put at expiry (S = 90,
K = 100, T = 0) the code returns delta `+1.0`, which is neither `-1` nor
`0`: the claimed put delta set `{-1, 0}` is wrong on the code. -/
theorem bs_expiry_put_delta_counterexample :
    (bsGreeks .put 90 100 0 0 0 (1/5)).delta = 1 ∧
    ¬((bsGreeks .put 90 100 0 0 0 (1/5)).delta = -1 ∨
      (bsGreeks .put 90 100 0 0 0 (1/5)).delta = 0) := by
  have h : (bsGreeks .put 90 100 0 0 0 (1/5)).delta
      = (if 0 < intrinsicValue .put 90 100 then (1:ℝ) else 0) := by
    rw [bsGreeks, if_pos (le_refl (0:ℝ))]
  have hintr : intrinsicValue .put 90 100 = 10 := by
    rw [intrinsicValue]
    norm_num
  rw [h, hintr]
  norm_num

/-! ## The standard normal distribution: facts needed for put-call parity -/

open MeasureTheory Set

theorem normPdf_pos (x : ℝ) : 0 < normPdf x := by
  rw [normPdf]
  have h2pi : (0 : ℝ) < 2 * Real.pi := by positivity
  positivity

theorem normPdf_neg (t : ℝ) : normPdf (-t) = normPdf t := by
  rw [normPdf, normPdf, neg_sq]

theorem integrable_normPdf : Integrable normPdf := by
  have h : Integrable (fun x : ℝ => Real.exp (-(2⁻¹ : ℝ) * x ^ 2)) :=
    integrable_exp_neg_mul_sq (by norm_num)
  have h2 := h.const_mul ((Real.sqrt (2 * Real.pi))⁻¹)
  have harg : ∀ x : ℝ, -(2⁻¹ : ℝ) * x ^ 2 = -(x ^ 2) / 2 := fun x => by ring
  simpa only [normPdf, harg] using h2

theorem integral_normPdf : (∫ x : ℝ, normPdf x) = 1 := by
  have harg : ∀ x : ℝ, -(x ^ 2) / 2 = -(2⁻¹ : ℝ) * x ^ 2 := fun x => by ring
  have hrw : normPdf = fun x : ℝ =>
      (Real.sqrt (2 * Real.pi))⁻¹ * Real.exp (-(2⁻¹ : ℝ) * x ^ 2) := by
    funext x
    rw [normPdf, harg]
  rw [hrw, integral_mul_left, integral_gaussian,
    show (Real.pi / 2⁻¹ : ℝ) = 2 * Real.pi by ring]
  exact inv_mul_cancel₀ (ne_of_gt (Real.sqrt_pos.2 (by positivity)))

theorem normCdf_add_neg (x : ℝ) : normCdf x + normCdf (-x) = 1 := by
  have h1 : normCdf (-x) = ∫ t in Ioi x, normPdf t := by
    rw [normCdf]
    have hc := integral_comp_neg_Iic (-x) normPdf
    rw [neg_neg] at hc
    rw [← hc]
    exact setIntegral_congr_fun measurableSet_Iic
      (fun t _ => (normPdf_neg t).symm)
  rw [h1, normCdf,
    intervalIntegral.integral_Iic_add_Ioi integrable_normPdf.integrableOn
      integrable_normPdf.integrableOn,
    integral_normPdf]

theorem normPdf_add (u a : ℝ) :
    normPdf (u + a) = normPdf u * Real.exp (-(a * u) - a ^ 2 / 2) := by
  rw [normPdf, normPdf, mul_assoc, ← Real.exp_add]
  congr 2
  ring

theorem normCdf_shift (x a : ℝ) :
    normCdf (x + a) = ∫ u in Iic x, normPdf (u + a) := by
  rw [normCdf, ← integral_indicator measurableSet_Iic,
    ← integral_add_right_eq_self
      (fun t => Set.indicator (Iic (x + a)) normPdf t) a,
    ← integral_indicator measurableSet_Iic]
  congr 1
  funext u
  by_cases h : u ≤ x
  · have h1 : u + a ∈ Iic (x + a) := by
      rw [mem_Iic]
      exact add_le_add_right h a
    have h2 : u ∈ Iic x := mem_Iic.2 h
    rw [indicator_of_mem h1, indicator_of_mem h2]
  · have h1 : u + a ∉ Iic (x + a) := by
      rw [mem_Iic]
      intro hle
      exact h (le_of_add_le_add_right hle)
    have h2 : u ∉ Iic x := fun hc => h (mem_Iic.1 hc)
    rw [indicator_of_not_mem h1, indicator_of_not_mem h2]

/-- The key comparison behind the positivity of the Black-Scholes call and
put formulas: shifting the CDF argument up by `a ≥ 0` costs at most the
factor `exp (a x + a² / 2)`. -/
theorem normCdf_shift_ge (x : ℝ) {a : ℝ} (ha : 0 ≤ a) :
    Real.exp (-(a * x) - a ^ 2 / 2) * normCdf x ≤ normCdf (x + a) := by
  rw [normCdf_shift, normCdf, ← integral_mul_left]
  refine setIntegral_mono_on
    ((integrable_normPdf.const_mul _).integrableOn)
    ((integrable_normPdf.comp_add_right a).integrableOn)
    measurableSet_Iic ?_
  intro u hu
  rw [normPdf_add, mul_comm]
  refine mul_le_mul_of_nonneg_left ?_ (le_of_lt (normPdf_pos u))
  refine Real.exp_le_exp.2 ?_
  have hux : u ≤ x := mem_Iic.1 hu
  have : a * u ≤ a * x := mul_le_mul_of_nonneg_left hux ha
  linarith

/-! ## Put-call parity (claim C9) -/

/-- Claim C9.  For positive spot, strike, time to expiry and volatility, the
Black-Scholes call price minus the put price on the same contract parameters
(same rate, dividend yield and implied-vol lookup — the vol lookup does not
depend on the option type) equals `S·e^(−qT) − K·e^(−rT)` exactly, in exact
real arithmetic.  The `max(price, 0.0)` floor in the code never bites: both
closed-form values are nonnegative, which is proved via `normCdf_shift_ge`. -/
theorem bs_put_call_parity (S K r q T sigma : ℝ) (hS : 0 < S) (hK : 0 < K)
    (hT : 0 < T) (hsigma : 0 < sigma) :
    bsPrice .call S K r q T sigma - bsPrice .put S K r q T sigma
      = S * Real.exp (-q * T) - K * Real.exp (-r * T) := by
  have hT0 : ¬T ≤ 0 := not_le.2 hT
  set d1 := (Real.log (S / K) + (r - q + 0.5 * sigma ^ 2) * T) /
    (sigma * Real.sqrt T) with hd1
  set d2 := d1 - sigma * Real.sqrt T with hd2
  have hcall : bsPrice .call S K r q T sigma
      = max (S * Real.exp (-q * T) * normCdf d1 -
          K * Real.exp (-r * T) * normCdf d2) 0 := by
    rw [bsPrice, if_neg hT0]
  have hput : bsPrice .put S K r q T sigma
      = max (K * Real.exp (-r * T) * normCdf (-d2) -
          S * Real.exp (-q * T) * normCdf (-d1)) 0 := by
    rw [bsPrice, if_neg hT0]
  have hsq : Real.sqrt T > 0 := Real.sqrt_pos.2 hT
  have ha : 0 < sigma * Real.sqrt T := mul_pos hsigma hsq
  have ha0 : sigma * Real.sqrt T ≠ 0 := ne_of_gt ha
  have ha2 : (sigma * Real.sqrt T) ^ 2 = sigma ^ 2 * T := by
    rw [mul_pow, Real.sq_sqrt hT.le]
  have hA : sigma * Real.sqrt T * d1 - (sigma * Real.sqrt T) ^ 2 / 2
      = Real.log (S / K) + (r - q) * T := by
    rw [hd1, mul_div_cancel₀ _ ha0, ha2]
    ring
  have hB : sigma * Real.sqrt T * d2 + (sigma * Real.sqrt T) ^ 2 / 2
      = Real.log (S / K) + (r - q) * T := by
    rw [hd2]
    have : sigma * Real.sqrt T * (d1 - sigma * Real.sqrt T)
        = sigma * Real.sqrt T * d1 - (sigma * Real.sqrt T) ^ 2 := by ring
    rw [this]
    linarith [hA]
  have hSK : 0 < S / K := div_pos hS hK
  have hKS : K * Real.exp (-r * T)
      = S * Real.exp (-q * T) *
        Real.exp (-(Real.log (S / K) + (r - q) * T)) := by
    rw [show -(Real.log (S / K) + (r - q) * T)
        = -Real.log (S / K) + -(r - q) * T by ring,
      Real.exp_add, Real.exp_neg, Real.exp_log hSK, inv_div]
    rw [show S * Real.exp (-q * T) * (K / S * Real.exp (-(r - q) * T))
        = K * (S / S) * (Real.exp (-q * T) * Real.exp (-(r - q) * T))
        by ring]
    rw [div_self (ne_of_gt hS), ← Real.exp_add,
      show -q * T + -(r - q) * T = -r * T by ring]
    ring
  have hcpos : K * Real.exp (-r * T) * normCdf d2
      ≤ S * Real.exp (-q * T) * normCdf d1 := by
    have hge := normCdf_shift_ge d2 ha.le
    have hd12 : d2 + sigma * Real.sqrt T = d1 := by rw [hd2]; ring
    rw [hd12] at hge
    have hexp : Real.exp (-(sigma * Real.sqrt T * d2) -
          (sigma * Real.sqrt T) ^ 2 / 2)
        = Real.exp (-(Real.log (S / K) + (r - q) * T)) := by
      congr 1
      linarith [hB]
    rw [hexp] at hge
    have hS' : (0 : ℝ) < S * Real.exp (-q * T) := by positivity
    have hmul := mul_le_mul_of_nonneg_left hge hS'.le
    calc K * Real.exp (-r * T) * normCdf d2
        = S * Real.exp (-q * T) *
            (Real.exp (-(Real.log (S / K) + (r - q) * T)) * normCdf d2) := by
          rw [hKS]; ring
      _ ≤ S * Real.exp (-q * T) * normCdf d1 := hmul
  have hKS2 : S * Real.exp (-q * T)
      = K * Real.exp (-r * T) *
        Real.exp (Real.log (S / K) + (r - q) * T) := by
    rw [hKS, mul_assoc, ← Real.exp_add,
      show -(Real.log (S / K) + (r - q) * T) +
        (Real.log (S / K) + (r - q) * T) = 0 by ring,
      Real.exp_zero, mul_one]
  have hppos : S * Real.exp (-q * T) * normCdf (-d1)
      ≤ K * Real.exp (-r * T) * normCdf (-d2) := by
    have hge := normCdf_shift_ge (-d1) ha.le
    have hd12 : -d1 + sigma * Real.sqrt T = -d2 := by rw [hd2]; ring
    rw [hd12] at hge
    have hexp : Real.exp (-(sigma * Real.sqrt T * -d1) -
          (sigma * Real.sqrt T) ^ 2 / 2)
        = Real.exp (Real.log (S / K) + (r - q) * T) := by
      congr 1
      have hexpand : -(sigma * Real.sqrt T * -d1) = sigma * Real.sqrt T * d1 := by
        ring
      rw [hexpand]
      linarith [hA]
    rw [hexp] at hge
    have hK' : (0 : ℝ) < K * Real.exp (-r * T) := by positivity
    have hmul := mul_le_mul_of_nonneg_left hge hK'.le
    calc S * Real.exp (-q * T) * normCdf (-d1)
        = K * Real.exp (-r * T) *
            (Real.exp (Real.log (S / K) + (r - q) * T) * normCdf (-d1)) := by
          rw [hKS2]; ring
      _ ≤ K * Real.exp (-r * T) * normCdf (-d2) := hmul
  rw [hcall, hput, max_eq_left (by linarith), max_eq_left (by linarith)]
  have h1 := normCdf_add_neg d1
  have h2 := normCdf_add_neg d2
  calc (S * Real.exp (-q * T) * normCdf d1 -
          K * Real.exp (-r * T) * normCdf d2) -
        (K * Real.exp (-r * T) * normCdf (-d2) -
          S * Real.exp (-q * T) * normCdf (-d1))
      = S * Real.exp (-q * T) * (normCdf d1 + normCdf (-d1)) -
        K * Real.exp (-r * T) * (normCdf d2 + normCdf (-d2)) := by ring
    _ = S * Real.exp (-q * T) * 1 - K * Real.exp (-r * T) * 1 := by
        rw [h1, h2]
    _ = S * Real.exp (-q * T) - K * Real.exp (-r * T) := by ring

/-- Witness for claim C9 at explicit inputs (S = K = 100, r = q = 0, T = 1,
sigma = 1/5): the parity difference evaluates to
`100·e^(−0·1) − 100·e^(−0·1)`. -/
theorem bs_put_call_parity_witness :
    (0 : ℝ) < 100 ∧ (0 : ℝ) < 1 ∧ (0 : ℝ) < 1/5 ∧
    bsPrice .call 100 100 0 0 1 (1/5) - bsPrice .put 100 100 0 0 1 (1/5)
      = 100 * Real.exp (-0 * 1) - 100 * Real.exp (-0 * 1) :=
  ⟨by norm_num, by norm_num, by norm_num,
   bs_put_call_parity 100 100 0 0 1 (1/5) (by norm_num) (by norm_num)
     (by norm_num) (by norm_num)⟩

end Backtester
